import Mathlib

/-!
Verification of the audio core of the Multi-tool hub repository:
the WAV encoder `audioBufferToWav` and the range extractor embedded in
`handleTrim` (src/components/tools/index.tsx).

Modelling conventions:
* Audio sample values are JavaScript doubles in the source; here they are
  modelled as exact rationals (ℚ).  All sample arithmetic the claims are
  about (clamping, scaling by 32768/32767, truncation toward zero,
  flooring of time·rate products) is exact on ℚ.
* An `AudioBuffer` is modelled by `SampleBuffer` with an explicit
  `numberOfChannels` / `length` (frame count) pair and a list of channel
  data lists, mirroring the Web Audio object the code manipulates.
* Byte sequences are `List ℕ`, each element a byte value < 256.
* Out-of-bounds channel-data reads in the encoder are modelled as `Option`
  failure, so totality of `encode` over valid buffers states exactly that
  every access performed by the sample-writing loop is within bounds.
-/

namespace Ashvora

/-- The in-memory representation of decoded audio (an `AudioBuffer`):
sample rate in Hz, declared channel count, declared frame count, and the
per-channel sample data. -/
structure SampleBuffer where
  sampleRate : ℕ
  numberOfChannels : ℕ
  length : ℕ
  channels : List (List ℚ)
  deriving Repr, DecidableEq

/-- The §3 invariants of a structurally valid `SampleBuffer`. -/
def Valid (b : SampleBuffer) : Prop :=
  0 < b.sampleRate ∧ 0 < b.numberOfChannels ∧
    b.channels.length = b.numberOfChannels ∧
    ∀ ch ∈ b.channels, ch.length = b.length

instance (b : SampleBuffer) : Decidable (Valid b) := by
  unfold Valid; infer_instance

/-- `AudioBuffer.duration`: frame count divided by sample rate. -/
def duration (b : SampleBuffer) : ℚ :=
  (b.length : ℚ) / (b.sampleRate : ℚ)

/-- Truncation toward zero, the rounding performed by JavaScript's
`ToInt32` conversion (the `| 0` pattern) on a finite value. -/
def trunc (q : ℚ) : ℤ :=
  if q < 0 then ⌈q⌉ else ⌊q⌋

/-- JavaScript `ToInt32` (the `x | 0` coercion) on a finite value:
truncate toward zero, then wrap into the signed 32-bit range. -/
def toInt32 (q : ℚ) : ℤ :=
  (trunc q + 2 ^ 31) % 2 ^ 32 - 2 ^ 31

/-- `Math.max(-1, Math.min(1, s))`: clamp a sample to `[-1, 1]`. -/
def clamp1 (s : ℚ) : ℚ :=
  max (-1) (min 1 s)

/-- The quantization step of `audioBufferToWav`, exactly as written:
`sample = (0.5 + sample < 0 ? sample * 32768 : sample * 32767) | 0`
applied to the clamped sample.  Note that by JavaScript operator
precedence the condition is `(0.5 + sample) < 0`. -/
def quantize (s : ℚ) : ℤ :=
  toInt32 (if 1 / 2 + clamp1 s < 0 then clamp1 s * 32768 else clamp1 s * 32767)

/-- Little-endian bytes of `DataView.setUint16` (value wraps mod 2^16). -/
def u16le (x : ℕ) : List ℕ :=
  [x % 256, x / 256 % 256]

/-- Little-endian bytes of `DataView.setUint32` (value wraps mod 2^32). -/
def u32le (x : ℕ) : List ℕ :=
  [x % 256, x / 256 % 256, x / 2 ^ 16 % 256, x / 2 ^ 24 % 256]

/-- Little-endian bytes of `DataView.setInt16`: the value's low 16 bits
in two's complement, low byte first. -/
def i16le (v : ℤ) : List ℕ :=
  [(v % 65536).toNat % 256, (v % 65536).toNat / 256]

/-- Reading two bytes back as a signed little-endian 16-bit integer
(spec-side decoder, used to state what 16-bit value the data section
holds). -/
def decodeI16le : List ℕ → Option ℤ
  | [b0, b1] =>
      some (if b0 % 256 + 256 * (b1 % 256) < 32768
        then (b0 % 256 + 256 * (b1 % 256) : ℕ)
        else (b0 % 256 + 256 * (b1 % 256) : ℕ) - 65536)
  | _ => none

/-- `channels[i][offset]` in the sample-writing loop: `none` when the
access would be out of bounds. -/
def sampleAt (chans : List (List ℚ)) (i off : ℕ) : Option ℚ :=
  match chans.get? i with
  | some ch => ch.get? off
  | none => none

/-- Bytes written by one pass of the inner `for (i = 0; i < numOfChan; i++)`
loop for the channel indices `is` at frame `off`. -/
def channelsBytes (chans : List (List ℚ)) (is : List ℕ) (off : ℕ) :
    Option (List ℕ) :=
  match is with
  | [] => some []
  | i :: rest => do
      let s ← sampleAt chans i off
      let tail ← channelsBytes chans rest off
      pure (i16le (quantize s) ++ tail)

/-- Bytes written by the `while (pos < len)` loop for the frame offsets
`offs`: the loop advances `offset` once per pass, writing one interleaved
frame each time. -/
def dataBytes (chans : List (List ℚ)) (c : ℕ) (offs : List ℕ) :
    Option (List ℕ) :=
  match offs with
  | [] => some []
  | off :: rest => do
      let f ← channelsBytes chans (List.range c) off
      let t ← dataBytes chans c rest
      pure (f ++ t)

/-- The 44 header bytes written by `audioBufferToWav`, in source order,
with `len = buffer.length * numOfChan * 2 + 44`. -/
def wavHeader (b : SampleBuffer) : List ℕ :=
  let numOfChan := b.numberOfChannels
  let len := b.length * numOfChan * 2 + 44
  u32le 0x46464952 ++ u32le (len - 8) ++ u32le 0x45564157 ++
    u32le 0x20746d66 ++ u32le 16 ++ u16le 1 ++ u16le numOfChan ++
    u32le b.sampleRate ++ u32le (b.sampleRate * 2 * numOfChan) ++
    u16le (numOfChan * 2) ++ u16le 16 ++ u32le 0x61746164 ++
    u32le (len - 40 - 4)

/-- `audioBufferToWav`: header followed by the interleaved quantized
sample data.  With `numOfChan > 0` the `while (pos < len)` loop performs
exactly `buffer.length` passes (it advances `pos` by `2 * numOfChan`
each pass over a span of `len - 44 = length * numOfChan * 2` bytes), and
with `numOfChan = 0` it performs none; `dataBytes` over
`List.range b.length` captures both.  `none` marks an out-of-bounds
channel-data access. -/
def encode (b : SampleBuffer) : Option (List ℕ) :=
  (dataBytes b.channels b.numberOfChannels (List.range b.length)).map
    (fun d => wavHeader b ++ d)

/-- The failures of the range extractor.  `invalidRange` is the
user-correctable early return
(`setStatus("Error: End time must be after start time.")`), taken
before any output is allocated.  `notSupported` is the
`NotSupportedError` the Web Audio API mandates for
`createBuffer(numberOfChannels, length, sampleRate)` when
`numberOfChannels` or `length` is zero; it escapes `handleTrim`
uncaught.  (Further `createBuffer` preconditions — the supported
sample-rate interval and the channel-count maximum — are
implementation-dependent, not mandated, and are outside this model.) -/
inductive TrimError where
  | invalidRange
  | notSupported
  deriving Repr, DecidableEq

/-- A JavaScript `TypedArray.subarray` relative index: negative values
count from the end, and the result is clamped into `[0, len]`. -/
def subIndex (len : ℕ) (r : ℤ) : ℕ :=
  if r < 0 then ((len : ℤ) + r).toNat else min r.toNat len

/-- `channelData.subarray(s, e)`: the elements of positions
`[subIndex len s, subIndex len e)`, empty when inverted. -/
def subarray (ch : List ℚ) (s e : ℤ) : List ℚ :=
  (ch.take (subIndex ch.length e)).drop (subIndex ch.length s)

/-- `newChannelData.set(src)` where `newChannelData` is the zero-filled
channel of a fresh `createBuffer` of `newLength` frames: `src` occupies
the front, the remainder stays zero.  (`TypedArray.set` throws when the
source is longer than the target; `writeChannel_subarray` below shows
the sources produced by `extract`'s `subarray` calls never are, so the
`take` here is inert.) -/
def writeChannel (newLength : ℕ) (src : List ℚ) : List ℚ :=
  src.take newLength ++ List.replicate (newLength - src.length) 0

/-- `handleTrim`'s core, as a function of the buffer and the two time
bounds: clamp the bounds, reject empty/inverted ranges, floor the
time·rate products to sample indices, call
`createBuffer(numberOfChannels, endSample - startSample, sampleRate)` —
which the Web Audio API mandates to throw `NotSupportedError` when the
channel count or the new length is zero — and copy
`subarray(startSample, endSample)` of each channel into the fresh
buffer. -/
def extract (b : SampleBuffer) (startTime endTime : ℚ) :
    Except TrimError SampleBuffer :=
  let start := max 0 startTime
  let e := min endTime (duration b)
  if e ≤ start then Except.error TrimError.invalidRange
  else
    let startSample : ℤ := ⌊start * (b.sampleRate : ℚ)⌋
    let endSample : ℤ := ⌊e * (b.sampleRate : ℚ)⌋
    let newLength : ℕ := (endSample - startSample).toNat
    if b.numberOfChannels = 0 ∨ newLength = 0 then
      Except.error TrimError.notSupported
    else
      Except.ok
        { sampleRate := b.sampleRate
          numberOfChannels := b.numberOfChannels
          length := newLength
          channels :=
            (List.range b.numberOfChannels).map fun i =>
              writeChannel newLength
                (subarray (b.channels.getD i []) startSample endSample) }

/-- The value of `channels[i][offset]` with JavaScript-style defaults
stripped away: the sample at channel `i`, frame `off` (total version of
`sampleAt`, meaningful whenever the access is in bounds). -/
def valAt (chans : List (List ℚ)) (i off : ℕ) : ℚ :=
  (chans.getD i []).getD off 0

/-- Total counterpart of `channelsBytes`: the interleaved bytes of one
frame, per channel index. -/
def channelsBytesT (chans : List (List ℚ)) (is : List ℕ) (off : ℕ) :
    List ℕ :=
  match is with
  | [] => []
  | i :: rest => i16le (quantize (valAt chans i off)) ++
      channelsBytesT chans rest off

/-- Total counterpart of `dataBytes`: all interleaved sample bytes for
the frame offsets `offs`. -/
def dataBytesT (chans : List (List ℚ)) (c : ℕ) (offs : List ℕ) :
    List ℕ :=
  match offs with
  | [] => []
  | off :: rest => channelsBytesT chans (List.range c) off ++
      dataBytesT chans c rest

/-- The header layout as the claim states it, field by field
(spec-side definition, written from the claim's offset table, for
comparison with `wavHeader`): "RIFF", totalLength − 8, "WAVE", "fmt ",
16, 1, channelCount, sampleRate, sampleRate·channelCount·2,
channelCount·2, 16, "data", frameCount·channelCount·2. -/
def wavHeaderSpec (b : SampleBuffer) : List ℕ :=
  [0x52, 0x49, 0x46, 0x46] ++
    u32le (44 + b.length * b.numberOfChannels * 2 - 8) ++
    [0x57, 0x41, 0x56, 0x45] ++ [0x66, 0x6d, 0x74, 0x20] ++
    u32le 16 ++ u16le 1 ++ u16le b.numberOfChannels ++
    u32le b.sampleRate ++ u32le (b.sampleRate * b.numberOfChannels * 2) ++
    u16le (b.numberOfChannels * 2) ++ u16le 16 ++
    [0x64, 0x61, 0x74, 0x61] ++
    u32le (b.length * b.numberOfChannels * 2)

/-- Clamping a floored sample index into `[0, frameCount]`, as the claim
describes it. -/
def clampIndex (k : ℤ) (n : ℕ) : ℕ :=
  min (max k 0).toNat n

/-- The RangeExtractor as C3 states it (spec-side definition, written
from the claim's words, for comparison with `extract`): clamp the
times, reject `effectiveEnd ≤ effectiveStart`, compute
`startSample = floor(effectiveStart * sampleRate)` and
`endSample = floor(effectiveEnd * sampleRate)`, clamp both indices into
`[0, frameCount]`, and slice `[startSample, endSample)` out of every
channel. -/
def extractSpec (b : SampleBuffer) (startTime endTime : ℚ) :
    Except TrimError SampleBuffer :=
  let start := max 0 startTime
  let e := min endTime (duration b)
  if e ≤ start then Except.error TrimError.invalidRange
  else
    let startSample : ℕ := clampIndex ⌊start * (b.sampleRate : ℚ)⌋ b.length
    let endSample : ℕ := clampIndex ⌊e * (b.sampleRate : ℚ)⌋ b.length
    Except.ok
      { sampleRate := b.sampleRate
        numberOfChannels := b.numberOfChannels
        length := endSample - startSample
        channels := b.channels.map fun ch =>
          (ch.take endSample).drop startSample }

/-- The quantization rule exactly as the claim states it: the branch
between the scale factors 32768 and 32767 taken at clamped `s < 0`
(spec-side definition, written from the claim's words, for comparison
with `quantize`). -/
def quantizeClaim (s : ℚ) : ℤ :=
  if clamp1 s < 0 then trunc (clamp1 s * 32768) else trunc (clamp1 s * 32767)

/-- The amended quantization rule: the branch between the scale factors
is taken exactly at clamped `s < -1/2` (the parse of
`0.5 + sample < 0` under JavaScript operator precedence). -/
def quantizeAmended (s : ℚ) : ℤ :=
  if clamp1 s < -(1 / 2) then trunc (clamp1 s * 32768)
  else trunc (clamp1 s * 32767)

section QuantizeLemmas

lemma neg_one_le_clamp1 (s : ℚ) : -1 ≤ clamp1 s :=
  le_max_left _ _

lemma clamp1_le_one (s : ℚ) : clamp1 s ≤ 1 :=
  max_le (by norm_num) (min_le_left _ _)

lemma trunc_bounds {q : ℚ} {m : ℕ} (h1 : -(m : ℚ) ≤ q) (h2 : q ≤ m) :
    -(m : ℤ) ≤ trunc q ∧ trunc q ≤ m := by
  unfold trunc
  split_ifs with h
  · refine ⟨?_, ?_⟩
    · have := Int.le_ceil q
      have : (-(m : ℤ) : ℚ) ≤ (⌈q⌉ : ℚ) := by push_cast; linarith
      exact_mod_cast this
    · exact Int.ceil_le.mpr h2
  · refine ⟨?_, ?_⟩
    · refine Int.le_floor.mpr ?_
      push_cast; linarith
    · have := Int.floor_le q
      have : (⌊q⌋ : ℚ) ≤ ((m : ℤ) : ℚ) := by push_cast; linarith
      exact_mod_cast this

lemma trunc_nonpos {q : ℚ} (h : q ≤ 0) : trunc q ≤ 0 := by
  unfold trunc
  split_ifs with hq
  · exact Int.ceil_le.mpr (by exact_mod_cast h)
  · exact le_trans (Int.floor_le_floor h) (by simp)

lemma toInt32_eq_trunc {q : ℚ} (h1 : -(2 ^ 31) ≤ trunc q)
    (h2 : trunc q < 2 ^ 31) : toInt32 q = trunc q := by
  unfold toInt32
  rw [Int.emod_eq_of_lt (by omega) (by omega)]
  omega

lemma quantize_mem (s : ℚ) :
    -32768 ≤ quantize s ∧ quantize s ≤ 32767 := by
  unfold quantize
  have hc1 := neg_one_le_clamp1 s
  have hc2 := clamp1_le_one s
  set c := clamp1 s with hc
  split_ifs with h
  · have hb := trunc_bounds (q := c * 32768) (m := 32768)
      (by push_cast; nlinarith) (by push_cast; nlinarith)
    have hup : trunc (c * 32768) ≤ 0 := trunc_nonpos (by nlinarith)
    rw [toInt32_eq_trunc (by omega) (by omega)]
    omega
  · have hb := trunc_bounds (q := c * 32767) (m := 32767)
      (by push_cast; nlinarith) (by push_cast; nlinarith)
    rw [toInt32_eq_trunc (by omega) (by omega)]
    omega

lemma decodeI16le_i16le {v : ℤ} (h1 : -32768 ≤ v) (h2 : v ≤ 32767) :
    decodeI16le (i16le v) = some v := by
  unfold i16le
  have hw0 : 0 ≤ v % 65536 := Int.emod_nonneg v (by norm_num)
  have hw1 : v % 65536 < 65536 := Int.emod_lt_of_pos v (by norm_num)
  have hv : v % 65536 = v ∨ v % 65536 = v + 65536 := by omega
  simp only [decodeI16le]
  split_ifs with h <;> · congr 1; omega

end QuantizeLemmas

/-- C1: the spec claims the encoder branches between the 32768 and 32767
scale factors exactly at clamped `s < 0`.  The code's condition
`0.5 + sample < 0` parses as `(0.5 + sample) < 0`, i.e. `sample < -0.5`,
so at `s = -1/4` the encoder scales by 32767 and produces `-8191`, while
the claimed rule scales by 32768 and produces `-8192`. -/
theorem quantize_claim_counterexample :
    quantize (-1 / 4) = -8191 ∧ quantizeClaim (-1 / 4) = -8192 ∧
      quantize (-1 / 4) ≠ quantizeClaim (-1 / 4) := by
  have hc : clamp1 (-1 / 4) = -1 / 4 := by
    unfold clamp1
    rw [min_eq_right (by norm_num), max_eq_right (by norm_num)]
  have h1 : quantize (-1 / 4) = -8191 := by
    unfold quantize
    rw [hc, if_neg (by norm_num)]
    unfold toInt32 trunc
    rw [if_pos (by norm_num : (-1 / 4 : ℚ) * 32767 < 0),
      show ((-1 / 4 : ℚ) * 32767) = -(32767 / 4) by norm_num, Int.ceil_neg]
    norm_num
  have h2 : quantizeClaim (-1 / 4) = -8192 := by
    unfold quantizeClaim
    rw [hc, if_pos (by norm_num)]
    unfold trunc
    rw [if_pos (by norm_num : (-1 / 4 : ℚ) * 32768 < 0),
      show ((-1 / 4 : ℚ) * 32768) = ((-8192 : ℤ) : ℚ) by norm_num,
      Int.ceil_intCast]
  exact ⟨h1, h2, by rw [h1, h2]; decide⟩

/-- C1 (amended): after clamping, the encoder quantizes as
`truncate(s * 32768)` when `s < -1/2` and as `truncate(s * 32767)`
otherwise; truncation is toward zero and the `| 0` conversion never
wraps. -/
theorem quantize_eq_amended (s : ℚ) : quantize s = quantizeAmended s := by
  unfold quantize quantizeAmended
  have hc1 := neg_one_le_clamp1 s
  have hc2 := clamp1_le_one s
  set c := clamp1 s with hc
  have hcond : (1 / 2 + c < 0) ↔ (c < -(1 / 2)) := by
    constructor <;> intro h <;> linarith
  split_ifs with h h' h'
  · exact toInt32_eq_trunc
      ((trunc_bounds (q := c * 32768) (m := 32768)
        (by push_cast; nlinarith) (by push_cast; nlinarith)).1.trans'
        (by norm_num))
      (lt_of_le_of_lt (trunc_bounds (q := c * 32768) (m := 32768)
        (by push_cast; nlinarith) (by push_cast; nlinarith)).2
        (by norm_num))
  · exact absurd (hcond.mp h) h'
  · exact absurd (hcond.mpr h') h
  · exact toInt32_eq_trunc
      ((trunc_bounds (q := c * 32767) (m := 32767)
        (by push_cast; nlinarith) (by push_cast; nlinarith)).1.trans'
        (by norm_num))
      (lt_of_le_of_lt (trunc_bounds (q := c * 32767) (m := 32767)
        (by push_cast; nlinarith) (by push_cast; nlinarith)).2
        (by norm_num))

/-- C10: for every (finite) sample value, however far outside
`[-1, 1]`, the clamp-then-scale-then-truncate step produces an integer
in `[-32768, 32767]`, and storing it as a signed little-endian 16-bit
value and reading it back is lossless — no wrap-around. -/
theorem quantize_no_wrap (s : ℚ) :
    -32768 ≤ quantize s ∧ quantize s ≤ 32767 ∧
      decodeI16le (i16le (quantize s)) = some (quantize s) := by
  obtain ⟨h1, h2⟩ := quantize_mem s
  exact ⟨h1, h2, decodeI16le_i16le h1 h2⟩

/-- C6: a single-sample mono buffer with value `1.0` encodes to the
16-bit data value `32767`, value `-1.0` encodes to `-32768`, and the
out-of-range value `1.5` is clamped and encodes byte-for-byte like
`1.0`. -/
lemma encode_single (r : ℕ) (x : ℚ) :
    encode ⟨r, 1, 1, [[x]]⟩ =
      some (wavHeader ⟨r, 1, 1, [[x]]⟩ ++ i16le (quantize x)) :=
  rfl

lemma quantize_one : quantize 1 = 32767 := by
  have hc : clamp1 1 = 1 := by
    unfold clamp1
    rw [min_self, max_eq_right (by norm_num)]
  unfold quantize
  rw [hc, if_neg (by norm_num)]
  unfold toInt32 trunc
  rw [if_neg (by norm_num),
    show ((1 : ℚ) * 32767) = ((32767 : ℤ) : ℚ) by norm_num, Int.floor_intCast]
  decide

lemma quantize_neg_one : quantize (-1) = -32768 := by
  have hc : clamp1 (-1) = -1 := by
    unfold clamp1
    rw [min_eq_right (by norm_num), max_self]
  unfold quantize
  rw [hc, if_pos (by norm_num)]
  unfold toInt32 trunc
  rw [if_pos (by norm_num : (-1 : ℚ) * 32768 < 0),
    show ((-1 : ℚ) * 32768) = ((-32768 : ℤ) : ℚ) by norm_num,
    Int.ceil_intCast]
  decide

lemma quantize_three_halves : quantize (3 / 2) = quantize 1 := by
  have hc : clamp1 (3 / 2) = 1 := by
    unfold clamp1
    rw [min_eq_left (by norm_num), max_eq_right (by norm_num)]
  have hc1 : clamp1 1 = 1 := by
    unfold clamp1
    rw [min_self, max_eq_right (by norm_num)]
  unfold quantize
  rw [hc, hc1]

/-- C6: a single-sample mono buffer with value `1.0` encodes to the
16-bit data value `32767`, value `-1.0` encodes to `-32768`, and the
out-of-range value `1.5` is clamped and encodes byte-for-byte like
`1.0`. -/
theorem encode_amplitude_extremes :
    ((encode ⟨8, 1, 1, [[1]]⟩).map fun bs => decodeI16le (bs.drop 44)) =
        some (some 32767) ∧
      ((encode ⟨8, 1, 1, [[-1]]⟩).map fun bs => decodeI16le (bs.drop 44)) =
        some (some (-32768)) ∧
      encode ⟨8, 1, 1, [[3 / 2]]⟩ = encode ⟨8, 1, 1, [[1]]⟩ := by
  refine ⟨?_, ?_, ?_⟩
  · rw [encode_single, quantize_one]
    decide
  · rw [encode_single, quantize_neg_one]
    decide
  · rw [encode_single, encode_single, quantize_three_halves]
    rfl

section EncodeLemmas

lemma length_i16le (v : ℤ) : (i16le v).length = 2 := rfl

lemma length_wavHeader (b : SampleBuffer) : (wavHeader b).length = 44 := by
  simp [wavHeader, u32le, u16le]

lemma channelsBytesT_append (chans : List (List ℚ)) (is js : List ℕ)
    (off : ℕ) :
    channelsBytesT chans (is ++ js) off =
      channelsBytesT chans is off ++ channelsBytesT chans js off := by
  induction is with
  | nil => rfl
  | cons i rest ih => simp [channelsBytesT, ih]

lemma dataBytesT_append (chans : List (List ℚ)) (c : ℕ)
    (offs offs' : List ℕ) :
    dataBytesT chans c (offs ++ offs') =
      dataBytesT chans c offs ++ dataBytesT chans c offs' := by
  induction offs with
  | nil => rfl
  | cons off rest ih => simp [dataBytesT, ih]

lemma length_channelsBytesT (chans : List (List ℚ)) (is : List ℕ)
    (off : ℕ) :
    (channelsBytesT chans is off).length = 2 * is.length := by
  induction is with
  | nil => rfl
  | cons i rest ih => simp [channelsBytesT, ih, length_i16le]; omega

lemma length_dataBytesT (chans : List (List ℚ)) (c : ℕ) (offs : List ℕ) :
    (dataBytesT chans c offs).length = 2 * c * offs.length := by
  induction offs with
  | nil => simp [dataBytesT]
  | cons off rest ih =>
      simp [dataBytesT, ih, length_channelsBytesT]; ring

lemma sampleAt_valid {b : SampleBuffer} (hb : Valid b) {i off : ℕ}
    (hi : i < b.numberOfChannels) (hoff : off < b.length) :
    sampleAt b.channels i off = some (valAt b.channels i off) := by
  obtain ⟨-, -, hlen, hall⟩ := hb
  have hi' : i < b.channels.length := by omega
  obtain ⟨ch, hch⟩ : ∃ ch, b.channels.get? i = some ch :=
    ⟨_, List.get?_eq_get hi'⟩
  have hmem : ch ∈ b.channels := List.get?_mem hch
  have hchlen : ch.length = b.length := hall ch hmem
  have hgd : b.channels.getD i [] = ch := by
    rw [List.getD_eq_getElem?_getD, ← List.get?_eq_getElem?, hch]
    rfl
  unfold sampleAt valAt
  rw [hch, hgd]
  have : ch.get? off = some (ch.getD off 0) := by
    rw [List.getD_eq_getElem?_getD, ← List.get?_eq_getElem?,
      List.get?_eq_get (show off < ch.length by omega)]
    rfl
  exact this

lemma channelsBytes_total {b : SampleBuffer} (hb : Valid b) {off : ℕ}
    (hoff : off < b.length) (is : List ℕ)
    (his : ∀ i ∈ is, i < b.numberOfChannels) :
    channelsBytes b.channels is off =
      some (channelsBytesT b.channels is off) := by
  induction is with
  | nil => rfl
  | cons i rest ih =>
      have hs := sampleAt_valid hb (his i (by simp)) hoff
      have ht := ih fun j hj => his j (by simp [hj])
      simp [channelsBytes, channelsBytesT, hs, ht]

lemma dataBytes_total {b : SampleBuffer} (hb : Valid b) (offs : List ℕ)
    (hoffs : ∀ off ∈ offs, off < b.length) :
    dataBytes b.channels b.numberOfChannels offs =
      some (dataBytesT b.channels b.numberOfChannels offs) := by
  induction offs with
  | nil => rfl
  | cons off rest ih =>
      have hf := channelsBytes_total hb (hoffs off (by simp))
        (List.range b.numberOfChannels) (fun i hi => List.mem_range.mp hi)
      have ht := ih fun o ho => hoffs o (by simp [ho])
      simp [dataBytes, dataBytesT, hf, ht]

lemma encode_eq_total {b : SampleBuffer} (hb : Valid b) :
    encode b = some (wavHeader b ++
      dataBytesT b.channels b.numberOfChannels (List.range b.length)) := by
  unfold encode
  rw [dataBytes_total hb _ fun off hoff => List.mem_range.mp hoff]
  rfl

lemma wavHeader_eq_spec (b : SampleBuffer) :
    wavHeader b = wavHeaderSpec b := by
  simp only [wavHeader, wavHeaderSpec]
  rw [show b.sampleRate * 2 * b.numberOfChannels =
    b.sampleRate * b.numberOfChannels * 2 by ring]
  have h1 : b.length * b.numberOfChannels * 2 + 44 - 8 =
      44 + b.length * b.numberOfChannels * 2 - 8 := by omega
  have h2 : b.length * b.numberOfChannels * 2 + 44 - 40 - 4 =
      b.length * b.numberOfChannels * 2 := by omega
  rw [h1, h2]
  rfl

end EncodeLemmas

/-- C7: the encoder is total on valid buffers — for every `SampleBuffer`
satisfying the §3 invariants, every channel-data access of the
sample-writing loop is in bounds (no `none`), the loop terminates, and a
complete byte sequence of the full advertised length is produced. -/
theorem encode_total (b : SampleBuffer) (hb : Valid b) :
    ∃ bs, encode b = some bs ∧
      bs.length = 44 + b.length * b.numberOfChannels * 2 := by
  refine ⟨_, encode_eq_total hb, ?_⟩
  rw [List.length_append, length_wavHeader, length_dataBytesT,
    List.length_range]
  ring

/-- Closed instance of `encode_total` at a concrete valid stereo
buffer. -/
theorem encode_total_witness :
    ∃ bs,
      encode ⟨8, 2, 2, [[0, 1 / 2], [-1 / 2, 1 / 4]]⟩ = some bs ∧
        bs.length = 44 + 2 * 2 * 2 :=
  encode_total ⟨8, 2, 2, [[0, 1 / 2], [-1 / 2, 1 / 4]]⟩ (by decide)

/-- C2: for every valid `SampleBuffer` the encoder emits exactly
`44 + frameCount * channelCount * 2` bytes whose first 44 bytes are the
claim's header layout: "RIFF", totalLength − 8, "WAVE", "fmt ", 16, 1,
channelCount, sampleRate, byte rate, block align, 16, "data", data
size — all little-endian. -/
theorem encode_header_layout (b : SampleBuffer) (hb : Valid b) :
    ∃ bs, encode b = some bs ∧
      bs.length = 44 + b.length * b.numberOfChannels * 2 ∧
      bs.take 44 = wavHeaderSpec b := by
  refine ⟨_, encode_eq_total hb, ?_, ?_⟩
  · rw [List.length_append, length_wavHeader, length_dataBytesT,
      List.length_range]
    ring
  · rw [List.take_left' (length_wavHeader b), wavHeader_eq_spec]

/-- Closed instance of `encode_header_layout` at a concrete valid mono
buffer. -/
theorem encode_header_layout_witness :
    ∃ bs, encode ⟨44100, 1, 2, [[0, 0]]⟩ = some bs ∧
      bs.length = 44 + 2 * 1 * 2 ∧
      bs.take 44 = wavHeaderSpec ⟨44100, 1, 2, [[0, 0]]⟩ :=
  encode_header_layout ⟨44100, 1, 2, [[0, 0]]⟩ (by decide)

section InterleaveLemmas

lemma range_split {n f : ℕ} (hf : f < n) :
    List.range n = List.range f ++ f :: List.range' (f + 1) (n - f - 1) := by
  have h1 : f :: List.range' (f + 1) (n - f - 1) = List.range' f (n - f) := by
    conv_rhs => rw [show n - f = (n - f - 1) + 1 by omega, List.range'_succ]
  rw [List.range_eq_range', List.range_eq_range', h1,
    show List.range' f (n - f) = List.range' (0 + f) (n - f) by norm_num,
    List.range'_append_1, show n - f + f = n by omega]

lemma dataBytesT_range_drop (chans : List (List ℚ)) (c : ℕ) {n f : ℕ}
    (hf : f < n) :
    ∃ tail, (dataBytesT chans c (List.range n)).drop (2 * c * f) =
      channelsBytesT chans (List.range c) f ++ tail := by
  refine ⟨dataBytesT chans c (List.range' (f + 1) (n - f - 1)), ?_⟩
  rw [range_split hf, dataBytesT_append]
  have hlen : (dataBytesT chans c (List.range f)).length = 2 * c * f := by
    rw [length_dataBytesT, List.length_range]
  rw [List.drop_left' hlen]
  rfl

lemma channelsBytesT_range_drop (chans : List (List ℚ)) (off : ℕ)
    {c i : ℕ} (hi : i < c) :
    ∃ tail, (channelsBytesT chans (List.range c) off).drop (2 * i) =
      i16le (quantize (valAt chans i off)) ++ tail := by
  refine ⟨channelsBytesT chans (List.range' (i + 1) (c - i - 1)) off, ?_⟩
  rw [range_split hi, channelsBytesT_append]
  have hlen : (channelsBytesT chans (List.range i) off).length = 2 * i := by
    rw [length_channelsBytesT, List.length_range]
  rw [List.drop_left' hlen]
  rfl

end InterleaveLemmas

/-- C5: for every valid buffer, the data section holds the quantized
16-bit samples in frame-major interleaved order: the two bytes at
offset `44 + 2 * (f * channelCount + i)` are exactly the encoding of
frame `f` of channel `i`. -/
theorem encode_interleaving (b : SampleBuffer) (hb : Valid b) (f i : ℕ)
    (hf : f < b.length) (hi : i < b.numberOfChannels) :
    ∃ bs s, encode b = some bs ∧ sampleAt b.channels i f = some s ∧
      (bs.drop (44 + 2 * (f * b.numberOfChannels + i))).take 2 =
        i16le (quantize s) := by
  refine ⟨_, _, encode_eq_total hb, sampleAt_valid hb hi hf, ?_⟩
  obtain ⟨tail, hframe⟩ :=
    dataBytesT_range_drop b.channels b.numberOfChannels hf
  obtain ⟨tail2, hchan⟩ :=
    channelsBytesT_range_drop b.channels f hi
  rw [show 44 + 2 * (f * b.numberOfChannels + i) =
      44 + (2 * b.numberOfChannels * f + 2 * i) by ring,
    ← List.drop_drop, List.drop_left' (length_wavHeader b),
    ← List.drop_drop, hframe,
    List.drop_append_of_le_length
      (by rw [length_channelsBytesT, List.length_range]; omega),
    hchan, List.append_assoc, List.take_left' (length_i16le _)]

/-- Closed instance of `encode_interleaving`: the claim's stereo
scenario (`frameCount = 2`, channel 0 = `[0, 1/2]`,
channel 1 = `[-1/2, 1/4]`) at frame 1, channel 0. -/
theorem encode_interleaving_witness :
    ∃ bs s,
      encode ⟨8, 2, 2, [[0, 1 / 2], [-1 / 2, 1 / 4]]⟩ = some bs ∧
        sampleAt [[0, 1 / 2], [-1 / 2, 1 / 4]] 0 1 = some s ∧
        (bs.drop (44 + 2 * (1 * 2 + 0))).take 2 = i16le (quantize s) :=
  encode_interleaving ⟨8, 2, 2, [[0, 1 / 2], [-1 / 2, 1 / 4]]⟩ (by decide)
    1 0 (by decide) (by decide)

section ExtractLemmas

lemma range_map_getD {α β : Type _} (l : List α) (d : α) (F : α → β) :
    (List.range l.length).map (fun i => F (l.getD i d)) = l.map F := by
  induction l with
  | nil => rfl
  | cons a tl ih =>
      rw [List.length_cons, List.range_succ_eq_map, List.map_cons,
        List.map_map]
      exact congrArg (List.cons (F a)) ih

lemma extract_channels_map {b : SampleBuffer} (hb : Valid b) (L : ℕ)
    (A B : ℤ) :
    (List.range b.numberOfChannels).map
        (fun i => writeChannel L (subarray (b.channels.getD i []) A B)) =
      b.channels.map fun ch => writeChannel L (subarray ch A B) := by
  obtain ⟨-, -, hlen, -⟩ := hb
  rw [← hlen]
  exact range_map_getD b.channels []
    (fun ch => writeChannel L (subarray ch A B))

lemma writeChannel_subarray {ch : List ℚ} {n : ℕ} (hch : ch.length = n)
    {A B : ℤ} (hA : 0 ≤ A) (hAB : A ≤ B) (hB : B ≤ (n : ℤ)) :
    writeChannel (B - A).toNat (subarray ch A B) =
      (ch.take B.toNat).drop A.toNat := by
  have hsA : subIndex ch.length A = A.toNat := by
    unfold subIndex
    rw [if_neg (by omega)]
    omega
  have hsB : subIndex ch.length B = B.toNat := by
    unfold subIndex
    rw [if_neg (by omega)]
    omega
  unfold subarray writeChannel
  rw [hsA, hsB]
  have hlen : ((ch.take B.toNat).drop A.toNat).length = (B - A).toNat := by
    rw [List.length_drop, List.length_take]
    omega
  rw [← hlen, List.take_length, Nat.sub_self, List.replicate_zero,
    List.append_nil]

lemma extract_bounds {b : SampleBuffer} (hb : Valid b) {s t : ℚ}
    (h : max 0 s < min t (duration b)) :
    0 ≤ ⌊max 0 s * (b.sampleRate : ℚ)⌋ ∧
      ⌊max 0 s * (b.sampleRate : ℚ)⌋ ≤
        ⌊min t (duration b) * (b.sampleRate : ℚ)⌋ ∧
      ⌊min t (duration b) * (b.sampleRate : ℚ)⌋ ≤ (b.length : ℤ) := by
  obtain ⟨hr, -, -, -⟩ := hb
  have hr0 : (0 : ℚ) < (b.sampleRate : ℚ) := by exact_mod_cast hr
  refine ⟨?_, ?_, ?_⟩
  · exact Int.floor_nonneg.mpr (mul_nonneg (le_max_left 0 s) (le_of_lt hr0))
  · exact Int.floor_le_floor
      (mul_le_mul_of_nonneg_right (le_of_lt h) (le_of_lt hr0))
  · have h2 : duration b * (b.sampleRate : ℚ) = (b.length : ℚ) := by
      unfold duration
      field_simp
    have hd : min t (duration b) * (b.sampleRate : ℚ) ≤ (b.length : ℚ) := by
      calc min t (duration b) * (b.sampleRate : ℚ) ≤
            duration b * (b.sampleRate : ℚ) :=
          mul_le_mul_of_nonneg_right (min_le_right _ _) (le_of_lt hr0)
        _ = (b.length : ℚ) := h2
    have h3 := Int.floor_le_floor hd
    rwa [Int.floor_natCast] at h3

/-- Closed form of the non-degenerate path of `extract` over a valid
buffer — the range check passes and the floored indices differ, so
`createBuffer` succeeds: the clamping performed by `subarray` and the
zero-fill of `writeChannel` are both inert, leaving a plain take/drop
slice. -/
lemma extract_ok {b : SampleBuffer} (hb : Valid b) {s t : ℚ}
    (h : max 0 s < min t (duration b))
    (hlt : ⌊max 0 s * (b.sampleRate : ℚ)⌋ <
      ⌊min t (duration b) * (b.sampleRate : ℚ)⌋) :
    extract b s t = Except.ok
      { sampleRate := b.sampleRate
        numberOfChannels := b.numberOfChannels
        length := (⌊min t (duration b) * (b.sampleRate : ℚ)⌋ -
          ⌊max 0 s * (b.sampleRate : ℚ)⌋).toNat
        channels := b.channels.map fun ch =>
          (ch.take (⌊min t (duration b) * (b.sampleRate : ℚ)⌋).toNat).drop
            (⌊max 0 s * (b.sampleRate : ℚ)⌋).toNat } := by
  obtain ⟨hA, hAB, hB⟩ := extract_bounds hb h
  have hc := hb.right.left
  simp only [extract]
  rw [if_neg (not_le.mpr h), if_neg (by push_neg; exact ⟨by omega, by omega⟩)]
  refine congrArg Except.ok ?_
  simp only [SampleBuffer.mk.injEq]
  refine ⟨trivial, trivial, trivial, ?_⟩
  rw [extract_channels_map hb]
  refine List.map_congr_left fun ch hch => ?_
  exact writeChannel_subarray (hb.right.right.right ch hch) hA hAB hB

/-- The degenerate path of `extract`: the range check passes but the
floored sample indices coincide, so `createBuffer` is invoked with a
zero length and throws `NotSupportedError`. -/
lemma extract_notSupported {b : SampleBuffer} {s t : ℚ}
    (h : max 0 s < min t (duration b))
    (heq : ⌊min t (duration b) * (b.sampleRate : ℚ)⌋ ≤
      ⌊max 0 s * (b.sampleRate : ℚ)⌋) :
    extract b s t = Except.error TrimError.notSupported := by
  simp only [extract]
  rw [if_neg (not_le.mpr h), if_pos (Or.inr (by omega))]

end ExtractLemmas

section SliceLemmas

lemma map_slice_id {α : Type _} {chs : List (List α)} {n : ℕ}
    (h : ∀ ch ∈ chs, ch.length = n) :
    (chs.map fun ch => (ch.take n).drop 0) = chs := by
  have h1 : ∀ ch ∈ chs, (ch.take n).drop 0 = ch := fun ch hch => by
    rw [List.drop_zero, ← h ch hch, List.take_length]
  exact (List.map_congr_left h1).trans (List.map_id chs)

end SliceLemmas

/-- C3 is false as stated: on the valid buffer
`⟨10, 1, 2, [[1/2, 1/4]]⟩` the time pair `(0, 1/20)` passes the range
check (`0 < 1/20 ≤ duration`), but both floored sample indices are `0`,
so `handleTrim` reaches `createBuffer(1, 0, 10)` and fails with the
mandated `NotSupportedError` — no clamping and no slicing occurs —
while the claim's clamp-then-slice description (`extractSpec`) yields
the empty slice. -/
theorem extract_degenerate_counterexample :
    Valid ⟨10, 1, 2, [[1 / 2, 1 / 4]]⟩ ∧
      ¬ (min (1 / 20 : ℚ) (duration ⟨10, 1, 2, [[1 / 2, 1 / 4]]⟩) ≤
        max 0 0) ∧
      extract ⟨10, 1, 2, [[1 / 2, 1 / 4]]⟩ 0 (1 / 20) =
        Except.error TrimError.notSupported ∧
      extractSpec ⟨10, 1, 2, [[1 / 2, 1 / 4]]⟩ 0 (1 / 20) =
        Except.ok ⟨10, 1, 0, [[]]⟩ ∧
      extract ⟨10, 1, 2, [[1 / 2, 1 / 4]]⟩ 0 (1 / 20) ≠
        extractSpec ⟨10, 1, 2, [[1 / 2, 1 / 4]]⟩ 0 (1 / 20) := by
  have e1 : min (1 / 20 : ℚ) (duration ⟨10, 1, 2, [[1 / 2, 1 / 4]]⟩) =
      1 / 20 := min_eq_left (by norm_num [duration])
  have e2 : max (0 : ℚ) (0 : ℚ) = 0 := max_self 0
  have hrange : max (0 : ℚ) 0 <
      min (1 / 20 : ℚ) (duration ⟨10, 1, 2, [[1 / 2, 1 / 4]]⟩) := by
    rw [e1, e2]
    norm_num
  have hext : extract ⟨10, 1, 2, [[1 / 2, 1 / 4]]⟩ 0 (1 / 20) =
      Except.error TrimError.notSupported := by
    refine extract_notSupported hrange ?_
    rw [e1, e2]
    norm_num
  have hspec : extractSpec ⟨10, 1, 2, [[1 / 2, 1 / 4]]⟩ 0 (1 / 20) =
      Except.ok ⟨10, 1, 0, [[]]⟩ := by
    simp only [extractSpec]
    rw [if_neg (not_le.mpr hrange), e1, e2]
    rw [show ⌊(0 : ℚ) * ((10 : ℕ) : ℚ)⌋ = 0 by norm_num,
      show ⌊(1 / 20 : ℚ) * ((10 : ℕ) : ℚ)⌋ = 0 by norm_num]
    rfl
  exact ⟨by decide, by rw [e1, e2]; norm_num, hext, hspec,
    by rw [hext, hspec]; exact fun hcontra => Except.noConfusion hcontra⟩

/-- C3 (amended): for every valid buffer and every pair of start/end
times that pass the range check and whose floored sample indices
differ (`startSample < endSample`), `extract` behaves exactly as the
claim describes: the indices are `floor(effectiveStart * sampleRate)`
and `floor(effectiveEnd * sampleRate)`, both clamped into
`[0, frameCount]` before slicing (the clamping is realized by
`subarray`; over a valid buffer it never has to move an index).  When
the floored indices coincide, `handleTrim` instead fails:
`createBuffer` throws `NotSupportedError` and no slicing occurs (see
`extract_degenerate_counterexample`). -/
theorem extract_refines_spec (b : SampleBuffer) (hb : Valid b)
    (s t : ℚ)
    (hne : ⌊max 0 s * (b.sampleRate : ℚ)⌋ <
      ⌊min t (duration b) * (b.sampleRate : ℚ)⌋) :
    extract b s t = extractSpec b s t := by
  have h : max 0 s < min t (duration b) := by
    by_contra hc
    push_neg at hc
    have hmono := Int.floor_le_floor
      (mul_le_mul_of_nonneg_right hc
        (by positivity : (0 : ℚ) ≤ (b.sampleRate : ℚ)))
    omega
  obtain ⟨hA, hAB, hB⟩ := extract_bounds hb h
  rw [extract_ok hb h hne]
  simp only [extractSpec]
  rw [if_neg (not_le.mpr h)]
  have hcA : clampIndex ⌊max 0 s * (b.sampleRate : ℚ)⌋ b.length =
      (⌊max 0 s * (b.sampleRate : ℚ)⌋).toNat := by
    unfold clampIndex
    omega
  have hcB :
      clampIndex ⌊min t (duration b) * (b.sampleRate : ℚ)⌋ b.length =
        (⌊min t (duration b) * (b.sampleRate : ℚ)⌋).toNat := by
    unfold clampIndex
    omega
  rw [hcA, hcB]
  refine congrArg Except.ok ?_
  simp only [SampleBuffer.mk.injEq]
  refine ⟨trivial, trivial, by omega, trivial⟩

/-- Closed instance of `extract_refines_spec` at a concrete valid
buffer and a non-degenerate time range. -/
theorem extract_refines_spec_witness :
    extract ⟨10, 1, 2, [[1 / 2, 1 / 4]]⟩ (1 / 20) (1 / 10) =
      extractSpec ⟨10, 1, 2, [[1 / 2, 1 / 4]]⟩ (1 / 20) (1 / 10) :=
  extract_refines_spec _ (by decide) _ _ (by norm_num [duration])

/-- C4: `extract` fails with `InvalidRangeError` exactly when
`effectiveEnd ≤ effectiveStart` after clamping; in particular
`extract(b, 5, 5)` and `extract(b, 5, 3)` fail for every buffer.  In
the `Except` embedding an error result carries no buffer, so no partial
output escapes on failure. -/
theorem extract_invalidRange_iff (b : SampleBuffer) (s t : ℚ) :
    (extract b s t = Except.error TrimError.invalidRange ↔
      min t (duration b) ≤ max 0 s) ∧
      extract b 5 5 = Except.error TrimError.invalidRange ∧
      extract b 5 3 = Except.error TrimError.invalidRange := by
  have key : ∀ u v : ℚ, min v (duration b) ≤ max 0 u →
      extract b u v = Except.error TrimError.invalidRange := by
    intro u v huv
    simp only [extract]
    rw [if_pos huv]
  refine ⟨⟨?_, key s t⟩, key 5 5 ?_, key 5 3 ?_⟩
  · intro h
    by_contra hc
    push_neg at hc
    simp only [extract] at h
    rw [if_neg (not_le.mpr hc)] at h
    split_ifs at h
    simp at h
  · exact le_trans (min_le_left _ _) (le_max_right 0 5)
  · exact le_trans (min_le_left _ _)
      (le_trans (by norm_num) (le_max_right 0 5))

/-- C8: extracting the full range `[0, durationSeconds)` of a valid
buffer with positive duration succeeds and returns a buffer equal to
the input (same frame count, rate, channel count, and samples). -/
theorem extract_identity (b : SampleBuffer) (hb : Valid b)
    (hd : 0 < duration b) : extract b 0 (duration b) = Except.ok b := by
  have h : max (0 : ℚ) 0 < min (duration b) (duration b) := by
    rwa [max_self, min_self]
  obtain ⟨hr, hc, hlen, hall⟩ := hb
  have hr0 : ((b.sampleRate : ℚ)) ≠ 0 :=
    Nat.cast_ne_zero.mpr (by omega)
  have hA : ⌊max (0 : ℚ) 0 * (b.sampleRate : ℚ)⌋ = 0 := by
    rw [max_self, zero_mul, Int.floor_zero]
  have hB : ⌊min (duration b) (duration b) * (b.sampleRate : ℚ)⌋ =
      (b.length : ℤ) := by
    rw [min_self]
    unfold duration
    rw [div_mul_cancel₀ _ hr0, Int.floor_natCast]
  have hn : 0 < b.length := by
    by_contra hc0
    push_neg at hc0
    have hz : b.length = 0 := Nat.le_zero.mp hc0
    unfold duration at hd
    rw [hz] at hd
    norm_num at hd
  have hlt : ⌊max (0 : ℚ) 0 * (b.sampleRate : ℚ)⌋ <
      ⌊min (duration b) (duration b) * (b.sampleRate : ℚ)⌋ := by
    rw [hA, hB]
    exact_mod_cast hn
  rw [extract_ok ⟨hr, hc, hlen, hall⟩ h hlt, hA, hB]
  refine congrArg Except.ok ?_
  rcases b with ⟨r0, c0, n0, chs⟩
  simp only [SampleBuffer.mk.injEq]
  refine ⟨trivial, trivial, by omega, ?_⟩
  simp only [Int.toNat_natCast, Int.toNat_zero]
  exact map_slice_id hall

/-- Closed instance of `extract_identity` at a concrete valid buffer. -/
theorem extract_identity_witness :
    extract ⟨10, 1, 2, [[1 / 2, 1 / 4]]⟩ 0
        (duration ⟨10, 1, 2, [[1 / 2, 1 / 4]]⟩) =
      Except.ok ⟨10, 1, 2, [[1 / 2, 1 / 4]]⟩ :=
  extract_identity _ (by decide) (by norm_num [duration])

/-- C9 (amended): extraction composes — extracting `[a, t)` and then
`[0, t - a)` of the result reproduces the direct extraction of
`[a, t)` — provided the floored sample counts agree,
`⌊(t − a)·rate⌋ = ⌊t·rate⌋ − ⌊a·rate⌋`, and the range is non-degenerate
at sample resolution, `⌊a·rate⌋ < ⌊t·rate⌋` (both hold in particular
whenever `a` and `t` are integer multiples of the sample period).
Without these side conditions the claim is false, see
`extract_compose_counterexample`. -/
theorem extract_compose (b : SampleBuffer) (hb : Valid b) (a t : ℚ)
    (ha : 0 ≤ a) (hat : a < t) (htd : t ≤ duration b)
    (hfl : ⌊(t - a) * (b.sampleRate : ℚ)⌋ =
      ⌊t * (b.sampleRate : ℚ)⌋ - ⌊a * (b.sampleRate : ℚ)⌋)
    (hlt : ⌊a * (b.sampleRate : ℚ)⌋ < ⌊t * (b.sampleRate : ℚ)⌋) :
    ∃ sub, extract b a t = Except.ok sub ∧
      extract sub 0 (t - a) = Except.ok sub := by
  obtain ⟨hr, hc, hlen, hall⟩ := hb
  have hr0 : (0 : ℚ) < (b.sampleRate : ℚ) := by exact_mod_cast hr
  have hmax : max 0 a = a := max_eq_right ha
  have hmin : min t (duration b) = t := min_eq_left htd
  have h1 : max 0 a < min t (duration b) := by
    rw [hmax, hmin]
    exact hat
  obtain ⟨hA0, hAB, hBn⟩ := extract_bounds ⟨hr, hc, hlen, hall⟩ h1
  rw [hmax] at hA0 hAB
  rw [hmin] at hAB hBn
  rw [extract_ok ⟨hr, hc, hlen, hall⟩ h1
    (by rw [hmax, hmin]; exact hlt), hmax, hmin]
  set A := ⌊a * (b.sampleRate : ℚ)⌋ with hA
  set B := ⌊t * (b.sampleRate : ℚ)⌋ with hB
  set S : SampleBuffer :=
    { sampleRate := b.sampleRate
      numberOfChannels := b.numberOfChannels
      length := (B - A).toNat
      channels := b.channels.map fun ch =>
        (ch.take B.toNat).drop A.toNat } with hS
  refine ⟨S, rfl, ?_⟩
  have hL1 : 1 ≤ (B - A).toNat := by omega
  have hVS : Valid S := by
    refine ⟨hr, hc, ?_, ?_⟩
    · rw [hS]
      dsimp only
      rw [List.length_map, hlen]
    · intro ch hch
      rw [hS] at hch ⊢
      dsimp only at hch ⊢
      obtain ⟨ch0, hch0, rfl⟩ := List.mem_map.mp hch
      rw [List.length_drop, List.length_take, hall ch0 hch0]
      omega
  have hdd : duration S = ((B - A).toNat : ℚ) / (b.sampleRate : ℚ) := by
    rw [hS]
    rfl
  have hBA : ((B - A).toNat : ℤ) = B - A := Int.toNat_of_nonneg (by omega)
  have hle : ((B - A).toNat : ℚ) ≤ (t - a) * (b.sampleRate : ℚ) := by
    have h4 := Int.floor_le ((t - a) * (b.sampleRate : ℚ))
    rw [hfl] at h4
    have h5 : (((B - A).toNat : ℤ) : ℚ) ≤ (t - a) * (b.sampleRate : ℚ) := by
      rw [hBA]
      exact h4
    exact_mod_cast h5
  have hminS : min (t - a) (duration S) = duration S := by
    rw [hdd]
    refine min_eq_right ?_
    rw [div_le_iff₀ hr0]
    exact hle
  have h2 : max (0 : ℚ) 0 < min (t - a) (duration S) := by
    rw [max_self, hminS, hdd]
    exact div_pos (by exact_mod_cast hL1) hr0
  have hsr : (S.sampleRate : ℚ) = (b.sampleRate : ℚ) := by rw [hS]
  have hA2 : ⌊max (0 : ℚ) 0 * (S.sampleRate : ℚ)⌋ = 0 := by
    rw [max_self, zero_mul, Int.floor_zero]
  have hB2 : ⌊min (t - a) (duration S) * (S.sampleRate : ℚ)⌋ =
      ((B - A).toNat : ℤ) := by
    rw [hminS, hdd, hsr, div_mul_cancel₀ _ (ne_of_gt hr0),
      Int.floor_natCast]
  have hlt2 : ⌊max (0 : ℚ) 0 * (S.sampleRate : ℚ)⌋ <
      ⌊min (t - a) (duration S) * (S.sampleRate : ℚ)⌋ := by
    rw [hA2, hB2]
    omega
  rw [extract_ok hVS h2 hlt2, hA2, hB2]
  refine congrArg Except.ok ?_
  have hchan : ∀ ch ∈ S.channels, ch.length = (B - A).toNat :=
    hVS.right.right.right
  rw [hS]
  dsimp only
  simp only [SampleBuffer.mk.injEq]
  refine ⟨trivial, trivial, by omega, ?_⟩
  simp only [Int.toNat_natCast, Int.toNat_zero]
  exact map_slice_id fun ch hch => hchan ch (by rw [hS]; exact hch)

/-- Closed instance of `extract_compose` at sample-aligned times on a
concrete valid buffer. -/
theorem extract_compose_witness :
    ∃ sub,
      extract ⟨10, 1, 2, [[1 / 2, 1 / 4]]⟩ (1 / 10) (2 / 10) =
          Except.ok sub ∧
        extract sub 0 (2 / 10 - 1 / 10) = Except.ok sub :=
  extract_compose _ (by decide) _ _ (by norm_num) (by norm_num)
    (by norm_num [duration]) (by norm_num) (by norm_num)

/-- C9 is false as stated: on a valid one-channel buffer with
`sampleRate = 10`, `frameCount = 2`, for `a = 1/20`, `t = 1/10`
(`0 ≤ a < t ≤ duration`), the direct extraction of `[a, t)` succeeds
with one frame, but re-extracting `[0, t - a)` from that result
computes `⌊(t−a)·rate⌋ = 0` frames — floors do not distribute over the
time difference (`⌊t·rate⌋ − ⌊a·rate⌋ = 1`) — so `handleTrim` reaches
`createBuffer(1, 0, 10)` and fails with the mandated
`NotSupportedError` instead of reproducing the direct result. -/
theorem extract_compose_counterexample :
    Valid ⟨10, 1, 2, [[1 / 2, 1 / 4]]⟩ ∧
      (0 : ℚ) ≤ 1 / 20 ∧ (1 / 20 : ℚ) < 1 / 10 ∧
      (1 / 10 : ℚ) ≤ duration ⟨10, 1, 2, [[1 / 2, 1 / 4]]⟩ ∧
      extract ⟨10, 1, 2, [[1 / 2, 1 / 4]]⟩ (1 / 20) (1 / 10) =
        Except.ok ⟨10, 1, 1, [[1 / 2]]⟩ ∧
      extract ⟨10, 1, 1, [[1 / 2]]⟩ 0 (1 / 10 - 1 / 20) =
        Except.error TrimError.notSupported ∧
      extract ⟨10, 1, 1, [[1 / 2]]⟩ 0 (1 / 10 - 1 / 20) ≠
        extract ⟨10, 1, 2, [[1 / 2, 1 / 4]]⟩ (1 / 20) (1 / 10) := by
  have h5 : extract ⟨10, 1, 2, [[1 / 2, 1 / 4]]⟩ (1 / 20) (1 / 10) =
      Except.ok ⟨10, 1, 1, [[1 / 2]]⟩ := by
    have e1 : min (1 / 10 : ℚ)
        (duration ⟨10, 1, 2, [[1 / 2, 1 / 4]]⟩) = 1 / 10 :=
      min_eq_left (by norm_num [duration])
    have e2 : max (0 : ℚ) (1 / 20) = 1 / 20 := max_eq_right (by norm_num)
    rw [extract_ok (by decide) (by rw [e1, e2]; norm_num)
      (by rw [e1, e2]; norm_num), e1, e2]
    dsimp only
    norm_num
  have h6 : extract ⟨10, 1, 1, [[1 / 2]]⟩ 0 (1 / 10 - 1 / 20) =
      Except.error TrimError.notSupported := by
    have e1 : min (1 / 10 - 1 / 20 : ℚ)
        (duration ⟨10, 1, 1, [[1 / 2]]⟩) = 1 / 10 - 1 / 20 :=
      min_eq_left (by norm_num [duration])
    have e2 : max (0 : ℚ) 0 = 0 := max_self 0
    refine extract_notSupported (by rw [e1, e2]; norm_num) ?_
    rw [e1, e2]
    norm_num
  exact ⟨by decide, by norm_num, by norm_num, by norm_num [duration],
    h5, h6, by rw [h5, h6]; exact fun hcontra => Except.noConfusion hcontra⟩

end Ashvora
